import Mathlib

/-!
Verification of the cost-category automation core
(`src/aws_org_costcategories_auto.py`) against its specification.

The Python source is shallowly embedded:
* `hash_dict` (fingerprint engine) works on a JSON value type `Jv`;
  `json.dumps(obj, sort_keys=True)` is modelled by `canonicalJson`, which
  recursively sorts every object's fields by key and then renders with the
  default separators of `json.dumps`.  The `hashlib.md5(...).hexdigest()`
  library call is an external collaborator and is passed in as a function
  parameter `md : String → String`; every statement about digests is proved
  for an arbitrary such function (with the one extra fact used where needed:
  an MD5 hex digest always has 32 characters, so it is never the sentinel
  `"-1"`).
* the rule builder `ce_build_cost_category_definitions` is embedded twice:
  once as the literal stateful loop over the shared mutable rule template
  (`ccDefsStatefulAux`, threading the aliased `Rule.Dimensions.Values`
  list), and once as the obvious pure function (`ccDefsPure`); the two are
  proved equal.
* `lambda_handler` is embedded as a function from an environment (the
  responses of the AWS collaborators) to the list of side effects it
  performs plus an optional fatal error.
-/

set_option linter.unusedVariables false

namespace CCat

/-- A tag assignment, `(key, value)`, as returned by
`organizations.list_tags_for_resource`. -/
abbrev Tag := String × String

/-- The `tags_tree` accumulator of the source: a `defaultdict(list)` from
account id to the ordered list of collected tag assignments, modelled as an
insertion-ordered association list. -/
abbrev TagsTree := List (String × List Tag)

/-! ## JSON values and `json.dumps(obj, sort_keys=True)` -/
/-- The fragment of JSON that `hash_dict` is applied to in the source
(`tags_tree`: dict of lists of dicts of strings; `org_units`: list of
strings). -/
inductive Jv where
  | str (s : String)
  | arr (xs : List Jv)
  | obj (fields : List (String × Jv))

/-- One hex digit, lowercase, as produced by Python's `\uXXXX` escapes. -/
def hexDigitChar (n : Nat) : Char :=
  if n < 10 then Char.ofNat (48 + n) else Char.ofNat (87 + n)

/-- Four lowercase hex digits. -/
def hex4 (n : Nat) : String :=
  String.mk [hexDigitChar (n / 4096 % 16), hexDigitChar (n / 256 % 16),
             hexDigitChar (n / 16 % 16), hexDigitChar (n % 16)]

/-- Escaping of a single character exactly as CPython's
`json.dumps` (with its default `ensure_ascii=True`) renders it inside a
string literal. -/
def jsonEscapeChar (c : Char) : String :=
  if c = '"' then "\\\""
  else if c = '\\' then "\\\\"
  else if c = '\n' then "\\n"
  else if c = '\t' then "\\t"
  else if c = '\r' then "\\r"
  else if c.toNat = 8 then "\\b"
  else if c.toNat = 12 then "\\f"
  else if c.toNat < 32 then "\\u" ++ hex4 c.toNat
  else if c.toNat < 127 then String.singleton c
  else if c.toNat < 65536 then "\\u" ++ hex4 c.toNat
  else "\\u" ++ hex4 (55296 + (c.toNat - 65536) / 1024)
       ++ "\\u" ++ hex4 (56320 + (c.toNat - 65536) % 1024)

/-- A JSON string literal. -/
def jsonStr (s : String) : String :=
  "\"" ++ String.join (s.data.map jsonEscapeChar) ++ "\""

/-- Object fields ordered by key: the order `json.dumps(…, sort_keys=True)`
renders them in.  Python compares strings lexicographically by code point,
which is exactly `String`'s linear order. -/
def keyLe (p q : String × Jv) : Prop := p.1 ≤ q.1

instance : DecidableRel keyLe := fun p q => inferInstanceAs (Decidable (p.1 ≤ q.1))

instance : IsTotal (String × Jv) keyLe := ⟨fun p q => le_total p.1 q.1⟩

instance : IsTrans (String × Jv) keyLe := ⟨fun _ _ _ h1 h2 => le_trans h1 h2⟩

/-- Sort an object's fields by key (stable, like Python's `sorted`). -/
def sortPairs (l : List (String × Jv)) : List (String × Jv) :=
  List.insertionSort keyLe l

mutual

/-- Recursively sort every object's fields by key.  `canonicalJson` below
renders the result without further reordering; the composition is
`json.dumps(obj, sort_keys=True)`. -/
def sortJv : Jv → Jv
  | .str s => .str s
  | .arr xs => .arr (sortJvList xs)
  | .obj fs => .obj (sortPairs (sortJvFields fs))

def sortJvList : List Jv → List Jv
  | [] => []
  | x :: xs => sortJv x :: sortJvList xs

def sortJvFields : List (String × Jv) → List (String × Jv)
  | [] => []
  | (k, v) :: fs => (k, sortJv v) :: sortJvFields fs

end

mutual

/-- Render a JSON value with `json.dumps`'s default separators
(item separator `", "`, key separator `": "`), preserving field order. -/
def plainJson : Jv → String
  | .str s => jsonStr s
  | .arr xs => "[" ++ plainJsonList xs ++ "]"
  | .obj fs => "\x7b" ++ plainJsonFields fs ++ "\x7d"

def plainJsonList : List Jv → String
  | [] => ""
  | [x] => plainJson x
  | x :: y :: xs => plainJson x ++ ", " ++ plainJsonList (y :: xs)

def plainJsonFields : List (String × Jv) → String
  | [] => ""
  | [(k, v)] => jsonStr k ++ ": " ++ plainJson v
  | (k, v) :: q :: fs => jsonStr k ++ ": " ++ plainJson v ++ ", " ++ plainJsonFields (q :: fs)

end

/-- `json.dumps(obj, sort_keys=True)`: every object's keys sorted
recursively, then rendered with the default separators. -/
def canonicalJson (v : Jv) : String := plainJson (sortJv v)

/-- `hash_dict` from the source:
`hashlib.md5(json.dumps(obj, sort_keys=True).encode("utf-8")).hexdigest()`.
The MD5-hexdigest library call is the parameter `md`. -/
def hash_dict (md : String → String) (obj : Jv) : String := md (canonicalJson obj)

/-! ### "Equal as key-value sets" (the spec's notion for claim C4)

Two JSON values are related when they are built the same way except that any
object's (duplicate-free) field list may appear in any insertion order, with
values again related. -/
mutual

inductive JvEquiv : Jv → Jv → Prop where
  | str (s : String) : JvEquiv (.str s) (.str s)
  | arr {xs ys : List Jv} : JvListEquiv xs ys → JvEquiv (.arr xs) (.arr ys)
  | obj {fs gs : List (String × Jv)} (mid : List (String × Jv)) :
      (fs.map Prod.fst).Nodup → fs.Perm mid → JvFieldsEquiv mid gs →
      JvEquiv (.obj fs) (.obj gs)

inductive JvListEquiv : List Jv → List Jv → Prop where
  | nil : JvListEquiv [] []
  | cons {x y : Jv} {xs ys : List Jv} :
      JvEquiv x y → JvListEquiv xs ys → JvListEquiv (x :: xs) (y :: ys)

inductive JvFieldsEquiv : List (String × Jv) → List (String × Jv) → Prop where
  | nil : JvFieldsEquiv [] []
  | cons (k : String) {v w : Jv} {fs gs : List (String × Jv)} :
      JvEquiv v w → JvFieldsEquiv fs gs → JvFieldsEquiv ((k, v) :: fs) ((k, w) :: gs)

end

/-- Strict key order; vacuously antisymmetric, which is what
`eq_of_perm_of_sorted` needs. -/
def keyLtNe (p q : String × Jv) : Prop := keyLe p q ∧ p.1 ≠ q.1

instance : IsAntisymm (String × Jv) keyLtNe :=
  ⟨fun _ _ h1 h2 => absurd (le_antisymm h1.1 h2.1) h1.2⟩

/-! ## Hierarchy Collector: building `tags_tree`

`org_fetch_tags_for_account(account, tags_tree)` appends, for every tag of
the account whose key is in the `CATEGORIES_TAGS` allow-list, the tag to
`tags_tree[account]` (the `defaultdict(list)` creates the entry on first
append, so an account with no allow-listed tag never becomes a key).
`org_fetch_tags_for_ou` is the same loop without the key filter.
The raw `list_tags_for_resource` responses are the environment function
`src : String → List Tag`. -/
/-- `tags_tree[a].append(t)` on a `defaultdict(list)`. -/
def tagsTreeAdd (tt : TagsTree) (a : String) (t : Tag) : TagsTree :=
  match tt with
  | [] => [(a, [t])]
  | p :: rest => if p.1 = a then (p.1, p.2 ++ [t]) :: rest else p :: tagsTreeAdd rest a t

/-- The loop body of `org_fetch_tags_for_account`: append each tag whose
key is allow-listed. -/
def addAccountTagList (allow : List String) (tt : TagsTree) (a : String) :
    List Tag → TagsTree
  | [] => tt
  | t :: ts =>
      if t.1 ∈ allow then addAccountTagList allow (tagsTreeAdd tt a t) a ts
      else addAccountTagList allow tt a ts

/-- `org_fetch_tags_for_account` from the source. -/
def org_fetch_tags_for_account (allow : List String) (src : String → List Tag)
    (a : String) (tt : TagsTree) : TagsTree :=
  addAccountTagList allow tt a (src a)

/-- The loop body of `org_fetch_tags_for_ou`: append every tag, unfiltered. -/
def addOuTagList (tt : TagsTree) (r : String) : List Tag → TagsTree
  | [] => tt
  | t :: ts => addOuTagList (tagsTreeAdd tt r t) r ts

/-- `org_fetch_tags_for_ou` from the source (defined there, but never called
by `lambda_handler`). -/
def org_fetch_tags_for_ou (src : String → List Tag) (r : String)
    (tt : TagsTree) : TagsTree :=
  addOuTagList tt r (src r)

/-- The `for acc_id in org_accounts: org_fetch_tags_for_account(...)` loop of
`lambda_handler`. -/
def buildTagsTree (allow : List String) (accounts : List String)
    (src : String → List Tag) : TagsTree :=
  accounts.foldl (fun tt a => org_fetch_tags_for_account allow src a tt) []

/-- `tags_tree[a]` (reading): the entry's tag list, `[]` when absent. -/
def treeTags (tt : TagsTree) (a : String) : List Tag :=
  match tt with
  | [] => []
  | p :: rest => if p.1 = a then p.2 else treeTags rest a

/-! ## Rule Builder: `ce_build_cost_category_definitions`, build phase

The double loop
`for account, tags_map in tags_tree.items(): for tag in tags_map:
cost_categories_map[tag['Key']][tag['Value']].append(account)`
over a nested `defaultdict(lambda: defaultdict(list))`, modelled as a
nested insertion-ordered association list. -/
/-- `cost_categories_map[k]`: map from tag value to bucketed account list. -/
abbrev ValMap := List (String × List String)

/-- The nested map `cost_categories_map`. -/
abbrev CCMap := List (String × ValMap)

/-- `vmap[v].append(a)` on an inner `defaultdict(list)`. -/
def addToVals (vmap : ValMap) (v a : String) : ValMap :=
  match vmap with
  | [] => [(v, [a])]
  | q :: rest => if q.1 = v then (q.1, q.2 ++ [a]) :: rest else q :: addToVals rest v a

/-- `cost_categories_map[k][v].append(a)`. -/
def bucketAdd (m : CCMap) (k v a : String) : CCMap :=
  match m with
  | [] => [(k, addToVals [] v a)]
  | p :: rest => if p.1 = k then (p.1, addToVals p.2 v a) :: rest else p :: bucketAdd rest k v a

/-- Inner loop: bucket account `a` under each of its collected tags. -/
def addTags (m : CCMap) (a : String) : List Tag → CCMap
  | [] => m
  | t :: ts => addTags (bucketAdd m t.1 t.2 a) a ts

/-- Outer loop over `tags_tree.items()`. -/
def buildCCMapAux (m : CCMap) : TagsTree → CCMap
  | [] => m
  | p :: rest => buildCCMapAux (addTags m p.1 p.2) rest

/-- `cost_categories_map` as built from `tags_tree`. -/
def buildCCMap (tt : TagsTree) : CCMap := buildCCMapAux [] tt

/-- `cost_categories_map[k]` (reading), `[]` when absent. -/
def findKey (m : CCMap) (k : String) : ValMap :=
  match m with
  | [] => []
  | p :: rest => if p.1 = k then p.2 else findKey rest k

/-- `vmap[v]` (reading), `[]` when absent. -/
def findVals (vmap : ValMap) (v : String) : List String :=
  match vmap with
  | [] => []
  | q :: rest => if q.1 = v then q.2 else findVals rest v

/-- The bucket for the pair `(k, v)`. -/
def lookupCC (m : CCMap) (k v : String) : List String :=
  findVals (findKey m k) v

/-- The accounts carrying tag `(k, v)`, in `tags_tree` scan order, one
occurrence per matching tag assignment. -/
def occurrences (tt : TagsTree) (k v : String) : List String :=
  match tt with
  | [] => []
  | p :: rest =>
      (p.2.filter (fun t => t.1 == k && t.2 == v)).map (fun _ => p.1)
        ++ occurrences rest k v

/-- All tag keys observed while scanning `tags_tree`, in scan order. -/
def observedKeys (tt : TagsTree) : List String :=
  match tt with
  | [] => []
  | p :: rest => p.2.map Prod.fst ++ observedKeys rest

/-- Add a key to a first-seen-order key list. -/
def insKey (ks : List String) (k : String) : List String :=
  if k ∈ ks then ks else ks ++ [k]

/-- First-seen-order deduplication (also models building a Python `set`,
whose iteration order is made irrelevant by the later `sort()`). -/
def dedupFS (xs : List String) : List String := xs.foldl insKey []

/-! ## Rule Builder: rule documents

`ccat_rule` is a template dict; `ccat_rule.copy()` is a *shallow* copy, so
all copies alias the single nested `Rule.Dimensions` dict.  The builder
mutates `['Value']` on the copy and `['Rule']['Dimensions']['Values']` on
the shared dict, then immediately snapshots with `json.dumps`.  The
stateful embedding threads the shared `Values` list and the copy's
`Value` field explicitly. -/
/-- One emitted rule, semantically: its label and matched accounts (the
other fields of the rule document are the constants visible in
`serializeRule`). -/
structure CCRule where
  value : String
  matchAccounts : List String
deriving DecidableEq

/-- `json.dumps` of the rule dict at snapshot time: field order is the
template's insertion order (`Value`, `Rule`, `Type`), default separators. -/
def serializeRule (v : String) (accs : List String) : String :=
  "\x7b\"Value\": " ++ jsonStr v ++
  ", \"Rule\": \x7b\"Dimensions\": \x7b\"Key\": \"LINKED_ACCOUNT\", \"Values\": [" ++
  String.intercalate ", " (accs.map jsonStr) ++
  "], \"MatchOptions\": [\"EQUALS\"]\x7d\x7d, \"Type\": \"REGULAR\"\x7d"

/-- Inner loop of the build phase for one definition: `curVal` is the
copy's current `'Value'` field (initially the template's `""`), `shared`
the aliased `Dimensions.Values` list; both are overwritten before each
`json.dumps` snapshot. -/
def buildRulesLoop (curVal : String) (shared : List String) :
    ValMap → List String × List String
  | [] => ([], shared)
  | q :: rest =>
      let s := serializeRule q.1 q.2
      let r := buildRulesLoop q.1 q.2 rest
      (s :: r.1, r.2)

/-- Outer loop of the build phase: each definition gets a fresh shallow
copy (`Value := ""`) but shares the mutated `Values` list left behind by
the previous definition. -/
def ccDefsStatefulAux (shared : List String) : CCMap → List (String × List String)
  | [] => []
  | p :: rest =>
      let r := buildRulesLoop "" shared p.2
      (p.1, r.1) :: ccDefsStatefulAux r.2 rest

/-- The build phase of `ce_build_cost_category_definitions`: the `cc_defs`
dict of serialized rule documents, starting from the template's pristine
shared `Values = []`. -/
def ce_build_rule_documents (tt : TagsTree) : List (String × List String) :=
  ccDefsStatefulAux [] (buildCCMap tt)

/-- The rules of one definition, as semantic rule records. -/
def ccRulesOfVmap (vmap : ValMap) : List CCRule :=
  vmap.map (fun q => ⟨q.1, q.2⟩)

/-- The pure build result: definition name to its ordered rule list. -/
def ccDefsPure (tt : TagsTree) : List (String × List CCRule) :=
  (buildCCMap tt).map (fun p => (p.1, ccRulesOfVmap p.2))

/-- The rules of the definition named `k`, `[]` when absent. -/
def defRules (defs : List (String × List CCRule)) (k : String) : List CCRule :=
  match defs with
  | [] => []
  | p :: rest => if p.1 = k then p.2 else defRules rest k

/-- The `matchAccounts` of the rule labelled `v`, `[]` when absent. -/
def ruleAccounts (rs : List CCRule) (v : String) : List String :=
  match rs with
  | [] => []
  | r :: rest => if r.value = v then r.matchAccounts else ruleAccounts rest v

/-! ## The digest store: `ssm_get_digest`

`ssm_get_digest` wraps `ssm.get_parameter` in
`try: ... except ClientError as err: if code == 'ParameterNotFound':
return '-1'` and then falls through to `return response['Parameter']['Value']`.
For a `ClientError` with any *other* code the original exception is
therefore swallowed and the dangling `return` raises an unbound-local
(`response` was never assigned) error instead; a non-`ClientError`
exception propagates unchanged. -/
/-- Outcome of the `ssm.get_parameter` call. -/
inductive SsmReadResult where
  | ok (v : String)
  | clientError (code : String)
  | otherError (msg : String)
deriving DecidableEq

/-- A fatal error aborting the run. -/
inductive RunError where
  | ackFailed
  | unboundLocal
  | storageError (msg : String)
  | clientStorageError (code : String)
  | ceFailed (name : String)
deriving DecidableEq

/-- `ssm_get_digest` from the source. -/
def ssm_get_digest : SsmReadResult → Except RunError String
  | .ok v => .ok v
  | .clientError code =>
      if code = "ParameterNotFound" then .ok "-1" else .error .unboundLocal
  | .otherError msg => .error (.storageError msg)

/-- Modelled from the spec: the digest-store read behaviour the spec section
"Digest-store read" claims — "parameter not found" maps to the sentinel
`"-1"`, and *any other storage error is not caught and propagates as
fatal*, i.e. a client error with another code would escape as itself. -/
def ssm_get_digest_claimed : SsmReadResult → Except RunError String
  | .ok v => .ok v
  | .clientError code =>
      if code = "ParameterNotFound" then .ok "-1" else .error (.clientStorageError code)
  | .otherError msg => .error (.storageError msg)

/-! ## The handler: `lambda_handler` as an effect trace

The AWS collaborators' responses are an `Env`; the handler is a pure
function to the list of side-effecting calls it performs, in order, plus
the fatal error it aborts with, if any. -/
/-- One side-effecting collaborator call. -/
inductive Effect where
  | sendResponse (status : String)
  | listOus
  | listAccounts
  | fetchAccountTags (a : String)
  | getDigest (path : String)
  | listCostCategories
  | createDef (name : String) (rules : List CCRule)
      (resourceTags : List (String × String)) (effStart : String)
  | updateDef (arn : String) (rules : List CCRule) (effStart : String)
  | putDigest (path : String) (value : String)
deriving DecidableEq

/-- A remote cost-category write (create or update) or a digest write. -/
def isWrite : Effect → Bool
  | .createDef _ _ _ _ => true
  | .updateDef _ _ _ => true
  | .putDigest _ _ => true
  | _ => false

/-- The configuration surface (environment variables read at import). -/
structure Config where
  allow : List String
  accPath : String
  ousPath : String
  effStart : String

/-- Responses of all external collaborators for one invocation. -/
structure Env where
  reqType : Option String
  ackOk : Bool
  accounts : List String
  accTags : String → List Tag
  ouIds : List String
  ouTags : String → List Tag
  ssmAcc : SsmReadResult
  ssmOus : SsmReadResult
  ownedRaw : List (String × String)
  ceOk : String → Bool
  md : String → String

/-- `d[k] = v` on a Python dict (overwrite in place, append when new):
how `ce_list_cost_categories` fills `cost_categories_arns`. -/
def dictUpd (m : List (String × String)) (k v : String) : List (String × String) :=
  match m with
  | [] => [(k, v)]
  | q :: rest => if q.1 = k then (q.1, v) :: rest else q :: dictUpd rest k v

/-- The `RemoteDefinitionIndex` built by `ce_list_cost_categories` from the
owner-tag-filtered listing. -/
def buildIndex (raw : List (String × String)) : List (String × String) :=
  raw.foldl (fun m q => dictUpd m q.1 q.2) []

/-- `cc_name in cost_categories_arns` / `cost_categories_arns[cc_name]`. -/
def dictFind (m : List (String × String)) (k : String) : Option String :=
  match m with
  | [] => none
  | q :: rest => if q.1 = k then some q.2 else dictFind rest k

/-- The remote call issued for one built definition: update when the name
is in the owned index, else create carrying the
`aws-finops-managed=true` ownership marker. -/
def publishAction (owned : List (String × String)) (effStart : String)
    (d : String × List CCRule) : Effect :=
  match dictFind owned d.1 with
  | some arn => .updateDef arn d.2 effStart
  | none => .createDef d.1 d.2 [("aws-finops-managed", "true")] effStart

/-- The publish loop of `ce_build_cost_category_definitions`: one remote
call per built definition, stopping at the first failing call, whose
exception propagates. -/
def publishDefs (owned : List (String × String)) (ceOk : String → Bool)
    (effStart : String) : List (String × List CCRule) → List Effect × Option RunError
  | [] => ([], none)
  | d :: rest =>
      let eff := publishAction owned effStart d
      if ceOk d.1 then
        let r := publishDefs owned ceOk effStart rest
        (eff :: r.1, r.2)
      else ([eff], some (.ceFailed d.1))

/-- `ce_build_cost_category_definitions`: build the rule documents from
`tags_tree`, then publish each definition. -/
def ce_build_cost_category_definitions (owned : List (String × String))
    (ceOk : String → Bool) (effStart : String) (tt : TagsTree) :
    List Effect × Option RunError :=
  publishDefs owned ceOk effStart (ccDefsPure tt)

/-- `tags_tree` as the JSON value `hash_dict` serializes: a dict from
account id to the list of `{"Key": k, "Value": v}` tag dicts. -/
def jvOfTagsTree (tt : TagsTree) : Jv :=
  .obj (tt.map (fun p =>
    (p.1, .arr (p.2.map (fun t => .obj [("Key", .str t.1), ("Value", .str t.2)])))))

/-- `org_units` as the JSON value `hash_dict` serializes. -/
def jvOfUnits (us : List String) : Jv := .arr (us.map .str)

/-- `le` for the `org_units.sort()` call. -/
def strLeB (a b : String) : Prop := a ≤ b

instance : DecidableRel strLeB := fun a b => inferInstanceAs (Decidable (a ≤ b))

/-- `org_units = list(org_ous); org_units.sort()`: the OU id set as a
sorted list (list-of-set iteration order is erased by the sort; the set
itself is first-seen deduplication). -/
def sortedUnits (ouIds : List String) : List String :=
  List.insertionSort strLeB (dedupFS ouIds)

/-- The freshly computed accounts digest `hash_dict(tags_tree)`. -/
def freshAccDigest (cfg : Config) (env : Env) : String :=
  hash_dict env.md (jvOfTagsTree (buildTagsTree cfg.allow env.accounts env.accTags))

/-- The freshly computed units digest `hash_dict(org_units)`. -/
def freshOusDigest (cfg : Config) (env : Env) : String :=
  hash_dict env.md (jvOfUnits (sortedUnits env.ouIds))

/-- The read-only enumeration calls the reconciliation always performs
first: list OUs, list accounts, fetch each account's tags. -/
def enumEffects (env : Env) : List Effect :=
  [Effect.listOus, Effect.listAccounts] ++ env.accounts.map Effect.fetchAccountTags

/-- The publish phase's effects and outcome for this run. -/
def pubOf (cfg : Config) (env : Env) : List Effect × Option RunError :=
  ce_build_cost_category_definitions (buildIndex env.ownedRaw) env.ceOk
    cfg.effStart (buildTagsTree cfg.allow env.accounts env.accTags)

/-- The `else` branch of the digest comparison: list owned definitions,
build and publish, and on full success persist both fresh digests. -/
def rebuildRun (cfg : Config) (env : Env) : List Effect × Option RunError :=
  match (pubOf cfg env).2 with
  | some e => (Effect.listCostCategories :: (pubOf cfg env).1, some e)
  | none => (Effect.listCostCategories :: (pubOf cfg env).1 ++
      [Effect.putDigest cfg.accPath (freshAccDigest cfg env),
       Effect.putDigest cfg.ousPath (freshOusDigest cfg env)], none)

/-- The reconciliation below the lifecycle gate, including the
short-circuiting `and` of the digest comparison (the OUs parameter is
only read when the accounts digest already matched). -/
def reconcile (cfg : Config) (env : Env) : List Effect × Option RunError :=
  match ssm_get_digest env.ssmAcc with
  | .error e => (enumEffects env ++ [.getDigest cfg.accPath], some e)
  | .ok da =>
    if freshAccDigest cfg env = da then
      match ssm_get_digest env.ssmOus with
      | .error e => (enumEffects env ++ [.getDigest cfg.accPath, .getDigest cfg.ousPath], some e)
      | .ok du =>
        if freshOusDigest cfg env = du then
          (enumEffects env ++ [.getDigest cfg.accPath, .getDigest cfg.ousPath], none)
        else
          (enumEffects env ++ [.getDigest cfg.accPath, .getDigest cfg.ousPath]
             ++ (rebuildRun cfg env).1, (rebuildRun cfg env).2)
    else
      (enumEffects env ++ [.getDigest cfg.accPath] ++ (rebuildRun cfg env).1,
       (rebuildRun cfg env).2)

/-- `lambda_handler`: `send_response(..., "SUCCESS")` first for
Create/Update/Delete events (raising when the callback fails), early
return for Delete, then the reconciliation. -/
def lambda_handler (cfg : Config) (env : Env) : List Effect × Option RunError :=
  if env.reqType = some "Create" ∨ env.reqType = some "Update" then
    if env.ackOk then
      ((Effect.sendResponse "SUCCESS") :: (reconcile cfg env).1, (reconcile cfg env).2)
    else ([Effect.sendResponse "SUCCESS"], some .ackFailed)
  else if env.reqType = some "Delete" then
    if env.ackOk then ([Effect.sendResponse "SUCCESS"], none)
    else ([Effect.sendResponse "SUCCESS"], some .ackFailed)
  else
    reconcile cfg env

/-! ## The Rule Builder claims -/
/-- The example `AccountTagMap` of the spec's scenario. -/
def exampleTT : TagsTree :=
  [("A1", [("CostCenter", "Eng")]), ("A2", [("CostCenter", "Eng")]),
   ("A3", [("CostCenter", "Sales")])]

/-- Two field lists with the same pairs in different insertion order. -/
def m1W : Jv := .obj [("b", .str "2"), ("a", .str "1")]

/-- `m1W` with its fields in the other order. -/
def m2W : Jv := .obj [("a", .str "1"), ("b", .str "2")]

/-- Concrete configuration for the witnesses. -/
def cfgW : Config :=
  { allow := ["CostCenter"], accPath := "/finops/acc", ousPath := "/finops/ous",
    effStart := "2022-01-01T00:00:00Z" }

/-- A concrete scheduled-run environment whose stored digests match the
fresh ones (digest function: a constant 1-character stand-in). -/
def envW : Env :=
  { reqType := none, ackOk := true, accounts := ["A1", "A2", "A3"],
    accTags := fun a =>
      if a = "A1" then [("CostCenter", "Eng")]
      else if a = "A2" then [("CostCenter", "Eng")]
      else if a = "A3" then [("CostCenter", "Sales")]
      else [("Owner", "Bob")],
    ouIds := ["ou-1"], ouTags := fun _ => [],
    ssmAcc := .ok "D", ssmOus := .ok "D",
    ownedRaw := [], ceOk := fun _ => true, md := fun _ => "D" }

/-- `envW` with a sentinel stored accounts digest and a 32-character
digest function. -/
def envSentW : Env :=
  { envW with md := fun _ => "0123456789abcdef0123456789abcdef",
              ssmAcc := .clientError "ParameterNotFound" }

/-- `envW` with a differing stored accounts digest and every remote
cost-category call failing. -/
def envFailW : Env := { envW with ssmAcc := .ok "-1", ceOk := fun _ => false }

/-- `envW` with a differing stored accounts digest (forces a rebuild). -/
def envRebW : Env := { envW with ssmAcc := .ok "-1" }

/-- `envW` as a CloudFormation "Delete" lifecycle event. -/
def envDelW : Env := { envW with reqType := some "Delete" }

/-! ### Sorting lemmas -/
theorem sortPairs_perm (l : List (String × Jv)) : (sortPairs l).Perm l :=
  List.perm_insertionSort keyLe l

theorem sortPairs_sorted (l : List (String × Jv)) : List.Sorted keyLe (sortPairs l) :=
  List.sorted_insertionSort keyLe l

theorem sorted_keyLtNe_of_nodup {l : List (String × Jv)}
    (hs : List.Sorted keyLe l) (hn : (l.map Prod.fst).Nodup) :
    List.Sorted keyLtNe l := by
  have hne : l.Pairwise (fun p q : String × Jv => p.1 ≠ q.1) := by
    simpa [List.Nodup, List.pairwise_map] using hn
  exact hs.and hne

/-- A permutation of a duplicate-free-keyed field list sorts to the same
list: the rendering of `sort_keys=True` is insertion-order independent. -/
theorem sortPairs_eq_of_perm {l1 l2 : List (String × Jv)}
    (hp : l1.Perm l2) (hn : (l1.map Prod.fst).Nodup) :
    sortPairs l1 = sortPairs l2 := by
  have hperm : (sortPairs l1).Perm (sortPairs l2) :=
    (sortPairs_perm l1).trans (hp.trans (sortPairs_perm l2).symm)
  have hn1 : ((sortPairs l1).map Prod.fst).Nodup :=
    (((sortPairs_perm l1).map Prod.fst).nodup_iff).mpr hn
  have hn2 : ((sortPairs l2).map Prod.fst).Nodup :=
    ((hperm.map Prod.fst).nodup_iff).mp hn1
  exact List.eq_of_perm_of_sorted hperm
    (sorted_keyLtNe_of_nodup (sortPairs_sorted l1) hn1)
    (sorted_keyLtNe_of_nodup (sortPairs_sorted l2) hn2)

theorem sortJvFields_eq_map (l : List (String × Jv)) :
    sortJvFields l = l.map (fun p => (p.1, sortJv p.2)) := by
  induction l with
  | nil => rfl
  | cons p fs ih => cases p; simp [sortJvFields, ih]

theorem sortJvFields_keys (l : List (String × Jv)) :
    (sortJvFields l).map Prod.fst = l.map Prod.fst := by
  rw [sortJvFields_eq_map, List.map_map]; rfl

mutual

theorem sortJv_eq_of_equiv {a b : Jv} (h : JvEquiv a b) : sortJv a = sortJv b := by
  cases h with
  | str s => rfl
  | arr h => simp only [sortJv]; rw [sortJvList_eq_of_equiv h]
  | @obj fs gs mid hn hp hf =>
      simp only [sortJv]
      have h1 : (sortJvFields fs).Perm (sortJvFields mid) := by
        rw [sortJvFields_eq_map, sortJvFields_eq_map]
        exact hp.map _
      have h2 : sortJvFields mid = sortJvFields gs := sortJvFields_eq_of_equiv hf
      have hn' : ((sortJvFields fs).map Prod.fst).Nodup := by
        rw [sortJvFields_keys]; exact hn
      rw [sortPairs_eq_of_perm (h1.trans (by rw [h2])) hn']

theorem sortJvList_eq_of_equiv {xs ys : List Jv} (h : JvListEquiv xs ys) :
    sortJvList xs = sortJvList ys := by
  cases h with
  | nil => rfl
  | cons hx hxs =>
      simp only [sortJvList]
      rw [sortJv_eq_of_equiv hx, sortJvList_eq_of_equiv hxs]

theorem sortJvFields_eq_of_equiv {fs gs : List (String × Jv)}
    (h : JvFieldsEquiv fs gs) : sortJvFields fs = sortJvFields gs := by
  cases h with
  | nil => rfl
  | cons k hv hfs =>
      simp only [sortJvFields]
      rw [sortJv_eq_of_equiv hv, sortJvFields_eq_of_equiv hfs]

end

/-! ## Lemmas about the bucketing maps -/
theorem findVals_addToVals (vmap : ValMap) (v' a v : String) :
    findVals (addToVals vmap v' a) v =
      if v = v' then findVals vmap v ++ [a] else findVals vmap v := by
  induction vmap with
  | nil =>
      by_cases h : v = v'
      · simp [addToVals, findVals, h]
      · simp [addToVals, findVals, h, Ne.symm h]
  | cons q rest ih =>
      by_cases hq : q.1 = v'
      · by_cases hv : v = v'
        · subst hv; simp [addToVals, findVals, hq]
        · have hvv : ¬ v' = v := fun h => hv h.symm
          simp [addToVals, findVals, hq, hv, hvv]
      · by_cases hqv : q.1 = v
        · have hv : ¬ v = v' := fun h => hq (hqv.trans h)
          simp [addToVals, findVals, hq, hqv, hv]
        · simp [addToVals, findVals, hq, hqv, ih]

theorem findKey_bucketAdd (m : CCMap) (k' v' a k : String) :
    findKey (bucketAdd m k' v' a) k =
      if k = k' then addToVals (findKey m k) v' a else findKey m k := by
  induction m with
  | nil =>
      by_cases h : k = k'
      · simp [bucketAdd, findKey, h]
      · simp [bucketAdd, findKey, h, Ne.symm h]
  | cons p rest ih =>
      by_cases hp : p.1 = k'
      · by_cases hk : k = k'
        · subst hk; simp [bucketAdd, findKey, hp]
        · have hkk : ¬ k' = k := fun h => hk h.symm
          simp [bucketAdd, findKey, hp, hk, hkk]
      · by_cases hpk : p.1 = k
        · have hk : ¬ k = k' := fun h => hp (hpk.trans h)
          simp [bucketAdd, findKey, hp, hpk, hk]
        · simp [bucketAdd, findKey, hp, hpk, ih]

theorem lookupCC_bucketAdd (m : CCMap) (k' v' a k v : String) :
    lookupCC (bucketAdd m k' v' a) k v =
      if k = k' ∧ v = v' then lookupCC m k v ++ [a] else lookupCC m k v := by
  unfold lookupCC
  rw [findKey_bucketAdd]
  by_cases hk : k = k'
  · rw [if_pos hk, findVals_addToVals]
    by_cases hv : v = v'
    · simp [hk, hv]
    · simp [hk, hv]
  · simp [hk]

theorem lookupCC_addTags (m : CCMap) (a : String) (ts : List Tag) (k v : String) :
    lookupCC (addTags m a ts) k v =
      lookupCC m k v ++ (ts.filter (fun t => t.1 == k && t.2 == v)).map (fun _ => a) := by
  induction ts generalizing m with
  | nil => simp [addTags]
  | cons t rest ih =>
      simp only [addTags, ih, lookupCC_bucketAdd]
      by_cases hk : k = t.1
      · by_cases hv : v = t.2
        · simp [List.filter, hk.symm, hv.symm, List.append_assoc]
        · have : ¬ (t.2 == v) = true := by simpa using fun h => hv h.symm
          simp [List.filter, hk, hv, this]
      · have : ¬ (t.1 == k) = true := by simpa using fun h => hk h.symm
        simp [List.filter, hk, this]

theorem lookupCC_buildCCMapAux (m : CCMap) (tt : TagsTree) (k v : String) :
    lookupCC (buildCCMapAux m tt) k v = lookupCC m k v ++ occurrences tt k v := by
  induction tt generalizing m with
  | nil => simp [buildCCMapAux, occurrences]
  | cons p rest ih =>
      simp only [buildCCMapAux, occurrences, ih, lookupCC_addTags, List.append_assoc]

theorem lookupCC_buildCCMap (tt : TagsTree) (k v : String) :
    lookupCC (buildCCMap tt) k v = occurrences tt k v := by
  have h := lookupCC_buildCCMapAux [] tt k v
  simpa [lookupCC, findKey] using h

theorem mem_occurrences {tt : TagsTree} {k v a : String} :
    a ∈ occurrences tt k v ↔ ∃ ts, (a, ts) ∈ tt ∧ (k, v) ∈ ts := by
  induction tt with
  | nil => simp [occurrences]
  | cons p rest ih =>
      obtain ⟨b, ts0⟩ := p
      simp only [occurrences, List.mem_append, List.mem_map, List.mem_filter, ih,
        List.mem_cons, Prod.mk.injEq, Bool.and_eq_true, beq_iff_eq]
      constructor
      · rintro (⟨t, ⟨ht, h1, h2⟩, rfl⟩ | ⟨ts, hts, hkv⟩)
        · refine ⟨ts0, Or.inl ⟨rfl, rfl⟩, ?_⟩
          obtain ⟨t1, t2⟩ := t
          cases h1; cases h2
          exact ht
        · exact ⟨ts, Or.inr hts, hkv⟩
      · rintro ⟨ts, (⟨rfl, rfl⟩ | hts), hkv⟩
        · exact Or.inl ⟨(k, v), ⟨hkv, rfl, rfl⟩, rfl⟩
        · exact Or.inr ⟨ts, hts, hkv⟩

theorem keys_bucketAdd (m : CCMap) (k v a : String) :
    (bucketAdd m k v a).map Prod.fst = insKey (m.map Prod.fst) k := by
  induction m with
  | nil => simp [bucketAdd, insKey]
  | cons p rest ih =>
      by_cases hp : p.1 = k
      · simp [bucketAdd, insKey, hp]
      · have hkp : ¬ k = p.1 := fun h => hp h.symm
        simp [bucketAdd, insKey, hp, hkp, ih]
        by_cases hm : k ∈ rest.map Prod.fst <;> simp [hm, hkp]

theorem keys_addTags (m : CCMap) (a : String) (ts : List Tag) :
    (addTags m a ts).map Prod.fst = (ts.map Prod.fst).foldl insKey (m.map Prod.fst) := by
  induction ts generalizing m with
  | nil => simp [addTags]
  | cons t rest ih => simp [addTags, ih, keys_bucketAdd]

theorem keys_buildCCMapAux (m : CCMap) (tt : TagsTree) :
    (buildCCMapAux m tt).map Prod.fst = (observedKeys tt).foldl insKey (m.map Prod.fst) := by
  induction tt generalizing m with
  | nil => simp [buildCCMapAux, observedKeys]
  | cons p rest ih =>
      simp [buildCCMapAux, observedKeys, ih, keys_addTags, List.foldl_append]

theorem keys_buildCCMap (tt : TagsTree) :
    (buildCCMap tt).map Prod.fst = dedupFS (observedKeys tt) := by
  simpa [dedupFS] using keys_buildCCMapAux [] tt

theorem nodup_insKey {ks : List String} (h : ks.Nodup) (k : String) :
    (insKey ks k).Nodup := by
  unfold insKey
  split
  · exact h
  · next hk => simpa [List.nodup_append] using ⟨h, hk⟩

theorem nodup_foldl_insKey (xs : List String) {ks : List String} (h : ks.Nodup) :
    (xs.foldl insKey ks).Nodup := by
  induction xs generalizing ks with
  | nil => simpa
  | cons x rest ih => exact ih (nodup_insKey h x)

theorem labels_addToVals (vmap : ValMap) (v a : String) :
    (addToVals vmap v a).map Prod.fst = insKey (vmap.map Prod.fst) v := by
  induction vmap with
  | nil => simp [addToVals, insKey]
  | cons q rest ih =>
      by_cases hq : q.1 = v
      · simp [addToVals, insKey, hq]
      · have hvq : ¬ v = q.1 := fun h => hq h.symm
        simp [addToVals, insKey, hq, hvq, ih]
        by_cases hm : v ∈ rest.map Prod.fst <;> simp [hm, hvq]

theorem labelsNodup_bucketAdd {m : CCMap} {k v a : String}
    (h : ∀ p ∈ m, (p.2.map Prod.fst).Nodup) :
    ∀ p ∈ bucketAdd m k v a, (p.2.map Prod.fst).Nodup := by
  induction m with
  | nil =>
      intro r hr
      simp [bucketAdd] at hr
      subst hr
      simp [addToVals]
  | cons q rest ih =>
      intro r hr
      by_cases hq : q.1 = k
      · rw [show bucketAdd (q :: rest) k v a = (q.1, addToVals q.2 v a) :: rest by
          simp [bucketAdd, hq]] at hr
        rcases List.mem_cons.mp hr with hr | hr
        · subst hr
          simp only [labels_addToVals]
          exact nodup_insKey (h q (List.mem_cons_self q rest)) v
        · exact h r (List.mem_cons_of_mem q hr)
      · rw [show bucketAdd (q :: rest) k v a = q :: bucketAdd rest k v a by
          simp [bucketAdd, hq]] at hr
        rcases List.mem_cons.mp hr with hr | hr
        · subst hr; exact h r (List.mem_cons_self r rest)
        · exact ih (fun s hs => h s (List.mem_cons_of_mem q hs)) r hr

theorem labelsNodup_addTags {m : CCMap} {a : String} {ts : List Tag}
    (h : ∀ p ∈ m, (p.2.map Prod.fst).Nodup) :
    ∀ p ∈ addTags m a ts, (p.2.map Prod.fst).Nodup := by
  induction ts generalizing m with
  | nil => simpa [addTags] using h
  | cons t rest ih => exact ih (labelsNodup_bucketAdd h)

theorem labelsNodup_buildCCMapAux {m : CCMap} {tt : TagsTree}
    (h : ∀ p ∈ m, (p.2.map Prod.fst).Nodup) :
    ∀ p ∈ buildCCMapAux m tt, (p.2.map Prod.fst).Nodup := by
  induction tt generalizing m with
  | nil => simpa [buildCCMapAux] using h
  | cons q rest ih => exact ih (labelsNodup_addTags h)

theorem labelsNodup_buildCCMap (tt : TagsTree) :
    ∀ p ∈ buildCCMap tt, (p.2.map Prod.fst).Nodup :=
  labelsNodup_buildCCMapAux (by simp)

theorem defRules_ccDefsPure (tt : TagsTree) (k : String) :
    defRules (ccDefsPure tt) k = ccRulesOfVmap (findKey (buildCCMap tt) k) := by
  unfold ccDefsPure
  generalize buildCCMap tt = m
  induction m with
  | nil => simp [defRules, findKey, ccRulesOfVmap]
  | cons p rest ih =>
      by_cases hp : p.1 = k <;> simp [defRules, findKey, hp, ih]

theorem ruleAccounts_ccRulesOfVmap (vmap : ValMap) (v : String) :
    ruleAccounts (ccRulesOfVmap vmap) v = findVals vmap v := by
  induction vmap with
  | nil => simp [ruleAccounts, findVals, ccRulesOfVmap]
  | cons q rest ih =>
      show ruleAccounts (⟨q.1, q.2⟩ :: ccRulesOfVmap rest) v = _
      by_cases hq : q.1 = v <;> simp [ruleAccounts, findVals, hq, ih]

theorem ruleAccounts_eq_occurrences (tt : TagsTree) (k v : String) :
    ruleAccounts (defRules (ccDefsPure tt) k) v = occurrences tt k v := by
  rw [defRules_ccDefsPure, ruleAccounts_ccRulesOfVmap]
  exact lookupCC_buildCCMap tt k v

/-! ## Lemmas about the stateful build loop -/
theorem buildRulesLoop_fst (cv : String) (sh : List String) (vmap : ValMap) :
    (buildRulesLoop cv sh vmap).1 = vmap.map (fun q => serializeRule q.1 q.2) := by
  induction vmap generalizing cv sh with
  | nil => rfl
  | cons q rest ih => simp [buildRulesLoop, ih]

theorem ccDefsStatefulAux_eq (sh : List String) (m : CCMap) :
    ccDefsStatefulAux sh m = m.map (fun p => (p.1, p.2.map (fun q => serializeRule q.1 q.2))) := by
  induction m generalizing sh with
  | nil => rfl
  | cons p rest ih => simp [ccDefsStatefulAux, ih, buildRulesLoop_fst]

/-! ## Lemmas about the publish loop -/
theorem publishDefs_of_allOk (owned : List (String × String)) (ceOk : String → Bool)
    (es : String) (defs : List (String × List CCRule))
    (hok : ∀ d ∈ defs, ceOk d.1 = true) :
    publishDefs owned ceOk es defs = (defs.map (publishAction owned es), none) := by
  induction defs with
  | nil => rfl
  | cons d rest ih =>
      have hd : ceOk d.1 = true := hok d (List.mem_cons_self d rest)
      simp [publishDefs, hd, ih (fun x hx => hok x (List.mem_cons_of_mem d hx))]

theorem publishDefs_none_iff (owned : List (String × String)) (ceOk : String → Bool)
    (es : String) (defs : List (String × List CCRule)) :
    (publishDefs owned ceOk es defs).2 = none ↔ ∀ d ∈ defs, ceOk d.1 = true := by
  induction defs with
  | nil => simp [publishDefs]
  | cons d rest ih =>
      by_cases hd : ceOk d.1 = true
      · simp [publishDefs, hd, ih]
      · simp [publishDefs, hd]

theorem publishDefs_mem (owned : List (String × String)) (ceOk : String → Bool)
    (es : String) (defs : List (String × List CCRule)) :
    ∀ e ∈ (publishDefs owned ceOk es defs).1, ∃ d ∈ defs, e = publishAction owned es d := by
  induction defs with
  | nil => simp [publishDefs]
  | cons d rest ih =>
      intro e he
      by_cases hd : ceOk d.1 = true
      · simp only [publishDefs, hd, if_true] at he
        rcases List.mem_cons.mp he with he | he
        · exact ⟨d, List.mem_cons_self d rest, he⟩
        · obtain ⟨d', hd', he'⟩ := ih e he
          exact ⟨d', List.mem_cons_of_mem d hd', he'⟩
      · simp only [publishDefs, hd, if_false] at he
        rcases List.mem_cons.mp he with he | he
        · exact ⟨d, List.mem_cons_self d rest, he⟩
        · cases List.not_mem_nil e he

theorem isWrite_publishAction (owned : List (String × String)) (es : String)
    (d : String × List CCRule) : isWrite (publishAction owned es d) = true := by
  unfold publishAction
  cases dictFind owned d.1 <;> rfl

theorem publishAction_ne_putDigest (owned : List (String × String)) (es : String)
    (d : String × List CCRule) (p w : String) :
    publishAction owned es d ≠ Effect.putDigest p w := by
  unfold publishAction
  cases dictFind owned d.1 <;> simp

theorem publishDefs_cons_fst (owned : List (String × String)) (ceOk : String → Bool)
    (es : String) (d : String × List CCRule) (rest : List (String × List CCRule)) :
    ∃ tl, (publishDefs owned ceOk es (d :: rest)).1 = publishAction owned es d :: tl := by
  by_cases hd : ceOk d.1 = true
  · refine ⟨(publishDefs owned ceOk es rest).1, ?_⟩
    simp [publishDefs, hd]
  · exact ⟨[], by simp [publishDefs, hd]⟩

/-- C1: Rule Builder grouping law.  The builder emits one definition per
distinct tag key observed (in first-seen order); within a definition rule
labels are unique; the `matchAccounts` of the rule for value `v` under
definition `k` is exactly the accounts carrying tag `(k, v)` in first-seen
(scan) order — so two accounts sharing `(k, v)` both appear there, and an
account never appears under a value it was not tagged with; and on the
spec's example map the builder emits definition `CostCenter` with exactly
the rules `Eng ↦ [A1, A2]` and `Sales ↦ [A3]`. -/
theorem C1_rule_builder_grouping (tt : TagsTree) (k v a : String) :
    ((ccDefsPure tt).map Prod.fst = dedupFS (observedKeys tt)
      ∧ ((ccDefsPure tt).map Prod.fst).Nodup)
    ∧ (∀ p ∈ ccDefsPure tt, (p.2.map CCRule.value).Nodup)
    ∧ ruleAccounts (defRules (ccDefsPure tt) k) v = occurrences tt k v
    ∧ (a ∈ ruleAccounts (defRules (ccDefsPure tt) k) v ↔
        ∃ ts, (a, ts) ∈ tt ∧ (k, v) ∈ ts)
    ∧ ccDefsPure exampleTT =
        [("CostCenter", [⟨"Eng", ["A1", "A2"]⟩, ⟨"Sales", ["A3"]⟩])] := by
  have hkeys : (ccDefsPure tt).map Prod.fst = (buildCCMap tt).map Prod.fst := by
    simp [ccDefsPure, List.map_map, Function.comp]
  refine ⟨⟨?_, ?_⟩, ?_, ?_, ?_, ?_⟩
  · rw [hkeys, keys_buildCCMap]
  · rw [hkeys, keys_buildCCMap]
    exact nodup_foldl_insKey _ List.nodup_nil
  · intro p hp
    simp only [ccDefsPure, List.mem_map] at hp
    obtain ⟨q, hq, rfl⟩ := hp
    have : (ccRulesOfVmap q.2).map CCRule.value = q.2.map Prod.fst := by
      simp [ccRulesOfVmap, List.map_map, Function.comp]
    simpa [this] using labelsNodup_buildCCMap tt q hq
  · exact ruleAccounts_eq_occurrences tt k v
  · rw [ruleAccounts_eq_occurrences]
    exact mem_occurrences
  · decide

/-- Witness for C1 at the spec's example scenario. -/
theorem C1_rule_builder_grouping_witness :
    ccDefsPure exampleTT =
      [("CostCenter", [⟨"Eng", ["A1", "A2"]⟩, ⟨"Sales", ["A3"]⟩])] :=
  (C1_rule_builder_grouping exampleTT "CostCenter" "Eng" "A1").2.2.2.2

/-- C6: Rule Builder idempotence/determinism.  The stateful build loop —
which threads the shared mutable rule-template's aliased
`Rule.Dimensions.Values` list from definition to definition — produces
output independent of that shared state, so two runs on the same
`AccountTagMap` yield byte-identical serialized rule documents, and the
output coincides with the pure per-pair serialization. -/
theorem C6_builder_idempotent (tt : TagsTree) (s1 s2 : List String) :
    ccDefsStatefulAux s1 (buildCCMap tt) = ccDefsStatefulAux s2 (buildCCMap tt)
    ∧ ce_build_rule_documents tt =
        (ccDefsPure tt).map
          (fun p => (p.1, p.2.map (fun r => serializeRule r.value r.matchAccounts))) := by
  constructor
  · rw [ccDefsStatefulAux_eq, ccDefsStatefulAux_eq]
  · rw [ce_build_rule_documents, ccDefsStatefulAux_eq, ccDefsPure]
    simp [List.map_map, Function.comp, ccRulesOfVmap]

/-- Witness for C6 at the example map and two different leftover template
states. -/
theorem C6_builder_idempotent_witness :
    ccDefsStatefulAux ["stale"] (buildCCMap exampleTT) =
      ccDefsStatefulAux [] (buildCCMap exampleTT) :=
  (C6_builder_idempotent exampleTT ["stale"] []).1

/-- C7: Publisher dispatch.  With every remote call succeeding, the publish
loop issues exactly one action per built definition, in order, carrying the
definition's full rule list as one document: an update with the stored
remote identifier when the name is in the owned index, else a create with
the `aws-finops-managed=true` ownership marker attached. -/
theorem C7_publisher_dispatch (owned : List (String × String)) (ceOk : String → Bool)
    (es : String) (defs : List (String × List CCRule))
    (hok : ∀ d ∈ defs, ceOk d.1 = true) :
    publishDefs owned ceOk es defs = (defs.map (publishAction owned es), none)
    ∧ (∀ name arn rules, dictFind owned name = some arn →
        publishAction owned es (name, rules) = .updateDef arn rules es)
    ∧ (∀ name rules, dictFind owned name = none →
        publishAction owned es (name, rules) =
          .createDef name rules [("aws-finops-managed", "true")] es) := by
  refine ⟨publishDefs_of_allOk owned ceOk es defs hok, ?_, ?_⟩
  · intro name arn rules h
    simp [publishAction, h]
  · intro name rules h
    simp [publishAction, h]

/-- Witness for C7: one owned (updated) and one unowned (created)
definition. -/
theorem C7_publisher_dispatch_witness :
    publishDefs [("CostCenter", "arn-1")] (fun _ => true) "2022-01-01T00:00:00Z"
        [("CostCenter", [⟨"Eng", ["A1"]⟩]), ("Team", [⟨"Core", ["A2"]⟩])] =
      ([.updateDef "arn-1" [⟨"Eng", ["A1"]⟩] "2022-01-01T00:00:00Z",
        .createDef "Team" [⟨"Core", ["A2"]⟩] [("aws-finops-managed", "true")]
          "2022-01-01T00:00:00Z"], none) := by
  have h := (C7_publisher_dispatch [("CostCenter", "arn-1")] (fun _ => true)
    "2022-01-01T00:00:00Z"
    [("CostCenter", [⟨"Eng", ["A1"]⟩]), ("Team", [⟨"Core", ["A2"]⟩])]
    (by intro d _; rfl)).1
  rw [h]
  rfl

/-! ## Lemmas about the reconciliation -/
theorem isWrite_enumEffects (env : Env) : ∀ e ∈ enumEffects env, isWrite e = false := by
  intro e he
  simp only [enumEffects, List.mem_append, List.mem_cons, List.mem_map,
    List.not_mem_nil, or_false] at he
  rcases he with (rfl | rfl) | ⟨a, _, rfl⟩ <;> rfl

theorem listCC_not_mem_enumEffects (env : Env) :
    Effect.listCostCategories ∉ enumEffects env := by
  intro h
  simp only [enumEffects, List.mem_append, List.mem_cons, List.mem_map,
    List.not_mem_nil, or_false] at h
  rcases h with (h | h) | ⟨a, _, h⟩ <;> cases h

theorem rebuildRun_of_pub_some {cfg : Config} {env : Env} {e : RunError}
    (h : (pubOf cfg env).2 = some e) :
    rebuildRun cfg env = (Effect.listCostCategories :: (pubOf cfg env).1, some e) := by
  unfold rebuildRun
  rw [h]

theorem rebuildRun_of_pub_none {cfg : Config} {env : Env}
    (h : (pubOf cfg env).2 = none) :
    rebuildRun cfg env = (Effect.listCostCategories :: (pubOf cfg env).1 ++
      [Effect.putDigest cfg.accPath (freshAccDigest cfg env),
       Effect.putDigest cfg.ousPath (freshOusDigest cfg env)], none) := by
  unfold rebuildRun
  rw [h]

theorem rebuildRun_snd (cfg : Config) (env : Env) :
    (rebuildRun cfg env).2 = (pubOf cfg env).2 := by
  cases h : (pubOf cfg env).2 with
  | none => rw [rebuildRun_of_pub_none h]
  | some e => rw [rebuildRun_of_pub_some h]

theorem listCC_mem_rebuildRun (cfg : Config) (env : Env) :
    Effect.listCostCategories ∈ (rebuildRun cfg env).1 := by
  cases h : (pubOf cfg env).2 with
  | none => rw [rebuildRun_of_pub_none h]; exact List.mem_cons_self _ _
  | some e => rw [rebuildRun_of_pub_some h]; exact List.mem_cons_self _ _

theorem exists_write_rebuildRun (cfg : Config) (env : Env) :
    ∃ e ∈ (rebuildRun cfg env).1, isWrite e = true := by
  cases hdefs : ccDefsPure (buildTagsTree cfg.allow env.accounts env.accTags) with
  | nil =>
      have hp : (pubOf cfg env).2 = none := by
        simp [pubOf, ce_build_cost_category_definitions, hdefs, publishDefs]
      rw [rebuildRun_of_pub_none hp]
      exact ⟨Effect.putDigest cfg.accPath (freshAccDigest cfg env), by simp, rfl⟩
  | cons d rest =>
      have hcons := publishDefs_cons_fst (buildIndex env.ownedRaw) env.ceOk cfg.effStart d rest
      obtain ⟨tl, htl⟩ := hcons
      have hmem : publishAction (buildIndex env.ownedRaw) cfg.effStart d ∈ (pubOf cfg env).1 := by
        simp only [pubOf, ce_build_cost_category_definitions, hdefs, htl]
        exact List.mem_cons_self _ _
      refine ⟨publishAction (buildIndex env.ownedRaw) cfg.effStart d, ?_,
        isWrite_publishAction _ _ _⟩
      cases h : (pubOf cfg env).2 with
      | none => rw [rebuildRun_of_pub_none h]; simp [hmem]
      | some e => rw [rebuildRun_of_pub_some h]; simp [hmem]

theorem putDigest_mem_rebuildRun {cfg : Config} {env : Env} {p w : String}
    (h : Effect.putDigest p w ∈ (rebuildRun cfg env).1) :
    (rebuildRun cfg env).2 = none ∧
    ∃ pre, (rebuildRun cfg env).1 = pre ++
      [Effect.putDigest cfg.accPath (freshAccDigest cfg env),
       Effect.putDigest cfg.ousPath (freshOusDigest cfg env)] := by
  cases hp : (pubOf cfg env).2 with
  | none =>
      rw [rebuildRun_of_pub_none hp]
      exact ⟨rfl, Effect.listCostCategories :: (pubOf cfg env).1, by simp⟩
  | some e =>
      rw [rebuildRun_of_pub_some hp] at h
      rcases List.mem_cons.mp h with h | h
      · cases h
      · obtain ⟨d, _, hd⟩ := publishDefs_mem _ _ _ _ _ h
        exact absurd hd.symm (publishAction_ne_putDigest _ _ _ _ _)

theorem reconcile_skip {cfg : Config} {env : Env} {da du : String}
    (hA : ssm_get_digest env.ssmAcc = .ok da) (h1 : freshAccDigest cfg env = da)
    (hO : ssm_get_digest env.ssmOus = .ok du) (h2 : freshOusDigest cfg env = du) :
    reconcile cfg env =
      (enumEffects env ++ [.getDigest cfg.accPath, .getDigest cfg.ousPath], none) := by
  unfold reconcile
  rw [hA, hO]
  simp [h1, h2]

theorem reconcile_rebuild_acc {cfg : Config} {env : Env} {da : String}
    (hA : ssm_get_digest env.ssmAcc = .ok da) (h1 : freshAccDigest cfg env ≠ da) :
    reconcile cfg env =
      (enumEffects env ++ [.getDigest cfg.accPath] ++ (rebuildRun cfg env).1,
       (rebuildRun cfg env).2) := by
  unfold reconcile
  rw [hA]
  simp [h1]

theorem reconcile_rebuild_ous {cfg : Config} {env : Env} {da du : String}
    (hA : ssm_get_digest env.ssmAcc = .ok da) (h1 : freshAccDigest cfg env = da)
    (hO : ssm_get_digest env.ssmOus = .ok du) (h2 : freshOusDigest cfg env ≠ du) :
    reconcile cfg env =
      (enumEffects env ++ [.getDigest cfg.accPath, .getDigest cfg.ousPath]
        ++ (rebuildRun cfg env).1, (rebuildRun cfg env).2) := by
  unfold reconcile
  rw [hA, hO]
  simp [h1, h2]

theorem reconcile_err_acc {cfg : Config} {env : Env} {e : RunError}
    (hA : ssm_get_digest env.ssmAcc = .error e) :
    reconcile cfg env = (enumEffects env ++ [.getDigest cfg.accPath], some e) := by
  unfold reconcile
  rw [hA]

theorem reconcile_err_ous {cfg : Config} {env : Env} {da : String} {e : RunError}
    (hA : ssm_get_digest env.ssmAcc = .ok da) (h1 : freshAccDigest cfg env = da)
    (hO : ssm_get_digest env.ssmOus = .error e) :
    reconcile cfg env =
      (enumEffects env ++ [.getDigest cfg.accPath, .getDigest cfg.ousPath], some e) := by
  unfold reconcile
  rw [hA, hO]
  simp [h1]

theorem lambda_handler_none {cfg : Config} {env : Env} (h : env.reqType = none) :
    lambda_handler cfg env = reconcile cfg env := by
  simp [lambda_handler, h]

theorem publishDefs_err_form (owned : List (String × String)) (ceOk : String → Bool)
    (es : String) (defs : List (String × List CCRule)) :
    (publishDefs owned ceOk es defs).2 = none ∨
    ∃ n, (publishDefs owned ceOk es defs).2 = some (.ceFailed n) := by
  induction defs with
  | nil => exact Or.inl rfl
  | cons d rest ih =>
      by_cases hd : ceOk d.1 = true
      · rcases ih with h | ⟨n, h⟩
        · exact Or.inl (by simp [publishDefs, hd, h])
        · exact Or.inr ⟨n, by simp [publishDefs, hd, h]⟩
      · exact Or.inr ⟨d.1, by simp [publishDefs, hd]⟩

/-- C2: Change Detector skip law.  On a scheduled run with both digest
reads succeeding: when both fresh fingerprints equal the stored digests the
run performs only the read-only enumeration and the two digest reads (no
remote cost-category write, no digest write, no error); a write-free
successful run can only happen in that case; and when either digest
differs, the full rebuild runs (the owned definitions are listed and at
least one write call is attempted). -/
theorem C2_change_detector_skip (cfg : Config) (env : Env) (da du : String)
    (hreq : env.reqType = none)
    (hA : ssm_get_digest env.ssmAcc = .ok da)
    (hO : ssm_get_digest env.ssmOus = .ok du) :
    (freshAccDigest cfg env = da ∧ freshOusDigest cfg env = du →
      lambda_handler cfg env =
        (enumEffects env ++ [.getDigest cfg.accPath, .getDigest cfg.ousPath], none))
    ∧ ((∀ e ∈ (lambda_handler cfg env).1, isWrite e = false) →
        freshAccDigest cfg env = da ∧ freshOusDigest cfg env = du)
    ∧ (¬(freshAccDigest cfg env = da ∧ freshOusDigest cfg env = du) →
        Effect.listCostCategories ∈ (lambda_handler cfg env).1 ∧
        ∃ e ∈ (lambda_handler cfg env).1, isWrite e = true) := by
  rw [lambda_handler_none hreq]
  by_cases h1 : freshAccDigest cfg env = da
  · by_cases h2 : freshOusDigest cfg env = du
    · refine ⟨fun _ => reconcile_skip hA h1 hO h2, fun _ => ⟨h1, h2⟩, fun hc => absurd ⟨h1, h2⟩ hc⟩
    · rw [reconcile_rebuild_ous hA h1 hO h2]
      obtain ⟨e, he, hw⟩ := exists_write_rebuildRun cfg env
      refine ⟨fun hc => absurd hc.2 h2, ?_, ?_⟩
      · intro hfree
        have := hfree e (by simp [he])
        rw [hw] at this
        cases this
      · intro _
        exact ⟨by simp [listCC_mem_rebuildRun cfg env], e, by simp [he], hw⟩
  · rw [reconcile_rebuild_acc hA h1]
    obtain ⟨e, he, hw⟩ := exists_write_rebuildRun cfg env
    refine ⟨fun hc => absurd hc.1 h1, ?_, ?_⟩
    · intro hfree
      have := hfree e (by simp [he])
      rw [hw] at this
      cases this
    · intro _
      exact ⟨by simp [listCC_mem_rebuildRun cfg env], e, by simp [he], hw⟩

/-- C5: Digest non-advancement on failure.  In any run, a digest write
implies the run succeeded and the two digest writes are the final effects,
after the whole publish cycle; and on a scheduled run whose accounts digest
differs and in which some built definition's remote call fails, the
failure propagates as the run's error, both digests remain unwritten, and
the rebuild was attempted (so an identical next run rebuilds again). -/
theorem C5_digest_non_advancement (cfg : Config) (env : Env) (da : String)
    (hreq : env.reqType = none)
    (hA : ssm_get_digest env.ssmAcc = .ok da)
    (hdiff : freshAccDigest cfg env ≠ da)
    (hfail : ∃ d ∈ ccDefsPure (buildTagsTree cfg.allow env.accounts env.accTags),
        env.ceOk d.1 = false) :
    (∀ cfg' env' p w, Effect.putDigest p w ∈ (lambda_handler cfg' env').1 →
      (lambda_handler cfg' env').2 = none ∧
      ∃ pre, (lambda_handler cfg' env').1 = pre ++
        [Effect.putDigest cfg'.accPath (freshAccDigest cfg' env'),
         Effect.putDigest cfg'.ousPath (freshOusDigest cfg' env')])
    ∧ (∃ n, (lambda_handler cfg env).2 = some (.ceFailed n))
    ∧ (∀ p w, Effect.putDigest p w ∉ (lambda_handler cfg env).1)
    ∧ Effect.listCostCategories ∈ (lambda_handler cfg env).1 := by
  have hgen : ∀ cfg' env' p w, Effect.putDigest p w ∈ (lambda_handler cfg' env').1 →
      (lambda_handler cfg' env').2 = none ∧
      ∃ pre, (lambda_handler cfg' env').1 = pre ++
        [Effect.putDigest cfg'.accPath (freshAccDigest cfg' env'),
         Effect.putDigest cfg'.ousPath (freshOusDigest cfg' env')] := by
    intro cfg' env' p w hmem
    have hrec : ∀ hput : Effect.putDigest p w ∈ (reconcile cfg' env').1,
        (reconcile cfg' env').2 = none ∧
        ∃ pre, (reconcile cfg' env').1 = pre ++
          [Effect.putDigest cfg'.accPath (freshAccDigest cfg' env'),
           Effect.putDigest cfg'.ousPath (freshOusDigest cfg' env')] := by
      intro hput
      have hnw : ∀ l : List Effect, (∀ e ∈ l, isWrite e = false) →
          Effect.putDigest p w ∈ l → False := by
        intro l hl hm
        have := hl _ hm
        cases this
      rcases hacc : ssm_get_digest env'.ssmAcc with e | da'
      · rw [reconcile_err_acc hacc] at hput ⊢
        exfalso
        rcases List.mem_append.mp hput with h | h
        · exact hnw _ (isWrite_enumEffects env') h
        · simp at h
      · by_cases h1 : freshAccDigest cfg' env' = da'
        · rcases hous : ssm_get_digest env'.ssmOus with e | du'
          · rw [reconcile_err_ous hacc h1 hous] at hput ⊢
            exfalso
            rcases List.mem_append.mp hput with h | h
            · exact hnw _ (isWrite_enumEffects env') h
            · simp at h
          · by_cases h2 : freshOusDigest cfg' env' = du'
            · rw [reconcile_skip hacc h1 hous h2] at hput ⊢
              exfalso
              rcases List.mem_append.mp hput with h | h
              · exact hnw _ (isWrite_enumEffects env') h
              · simp at h
            · rw [reconcile_rebuild_ous hacc h1 hous h2] at hput ⊢
              have hput' : Effect.putDigest p w ∈ (rebuildRun cfg' env').1 := by
                rcases List.mem_append.mp hput with h | h
                · exfalso
                  rcases List.mem_append.mp h with h | h
                  · exact hnw _ (isWrite_enumEffects env') h
                  · simp at h
                · exact h
              obtain ⟨hn, pre, hpre⟩ := putDigest_mem_rebuildRun hput'
              exact ⟨hn, enumEffects env' ++ [.getDigest cfg'.accPath, .getDigest cfg'.ousPath]
                ++ pre, by simp [hpre]⟩
        · rw [reconcile_rebuild_acc hacc h1] at hput ⊢
          have hput' : Effect.putDigest p w ∈ (rebuildRun cfg' env').1 := by
            rcases List.mem_append.mp hput with h | h
            · exfalso
              rcases List.mem_append.mp h with h | h
              · exact hnw _ (isWrite_enumEffects env') h
              · simp at h
            · exact h
          obtain ⟨hn, pre, hpre⟩ := putDigest_mem_rebuildRun hput'
          exact ⟨hn, enumEffects env' ++ [.getDigest cfg'.accPath] ++ pre, by simp [hpre]⟩
    rcases hrt : env'.reqType with _ | s
    · rw [lambda_handler_none hrt] at hmem ⊢
      exact hrec hmem
    · by_cases hcu : env'.reqType = some "Create" ∨ env'.reqType = some "Update"
      · by_cases hack : env'.ackOk = true
        · have hh : lambda_handler cfg' env' =
              ((Effect.sendResponse "SUCCESS") :: (reconcile cfg' env').1,
               (reconcile cfg' env').2) := by
            simp [lambda_handler, hcu, hack]
          rw [hh] at hmem ⊢
          have hmem' : Effect.putDigest p w ∈ (reconcile cfg' env').1 := by
            rcases List.mem_cons.mp hmem with h | h
            · cases h
            · exact h
          obtain ⟨hn, pre, hpre⟩ := hrec hmem'
          exact ⟨hn, Effect.sendResponse "SUCCESS" :: pre, by simp [hpre]⟩
        · have hh : lambda_handler cfg' env' =
              ([Effect.sendResponse "SUCCESS"], some .ackFailed) := by
            simp [lambda_handler, hcu, hack]
          rw [hh] at hmem
          simp at hmem
      · by_cases hdel : env'.reqType = some "Delete"
        · exfalso
          cases hak : env'.ackOk <;> simp [lambda_handler, hcu, hdel, hak] at hmem
        · have hh : lambda_handler cfg' env' = reconcile cfg' env' := by
            simp [lambda_handler, hcu, hdel]
          rw [hh] at hmem ⊢
          exact hrec hmem
  have hpub : ∃ n, (pubOf cfg env).2 = some (.ceFailed n) := by
    rcases publishDefs_err_form (buildIndex env.ownedRaw) env.ceOk cfg.effStart
        (ccDefsPure (buildTagsTree cfg.allow env.accounts env.accTags)) with h | h
    · obtain ⟨d, hd, hdf⟩ := hfail
      have := (publishDefs_none_iff _ _ _ _).mp h d hd
      rw [hdf] at this
      cases this
    · exact h
  obtain ⟨n, hn⟩ := hpub
  rw [lambda_handler_none hreq, reconcile_rebuild_acc hA hdiff]
  refine ⟨hgen, ⟨n, by rw [rebuildRun_snd, hn]⟩, ?_, by simp [listCC_mem_rebuildRun cfg env]⟩
  intro p w hput
  have hput' : Effect.putDigest p w ∈ (rebuildRun cfg env).1 := by
    rcases List.mem_append.mp hput with h | h
    · exfalso
      rcases List.mem_append.mp h with h | h
      · have := isWrite_enumEffects env _ h
        cases this
      · simp at h
    · exact h
  have := (putDigest_mem_rebuildRun hput').1
  rw [rebuildRun_snd, hn] at this
  cases this

/-- C8: Lifecycle gating.  A "Delete" event is acknowledged with SUCCESS
and the handler returns with no other effect (no enumeration, no digest
read or write, no remote write); a "Create"/"Update" event is acknowledged
first, before the reconciliation, whose outcome does not affect the
acknowledgment. -/
theorem C8_lifecycle_gating (cfg : Config) (env : Env) :
    (env.reqType = some "Delete" →
      lambda_handler cfg env =
        ([Effect.sendResponse "SUCCESS"], if env.ackOk then none else some .ackFailed))
    ∧ ((env.reqType = some "Create" ∨ env.reqType = some "Update") →
        (lambda_handler cfg env).1.head? = some (Effect.sendResponse "SUCCESS")
        ∧ (env.ackOk = true →
            lambda_handler cfg env =
              (Effect.sendResponse "SUCCESS" :: (reconcile cfg env).1,
               (reconcile cfg env).2))) := by
  constructor
  · intro hdel
    have hcu : ¬(env.reqType = some "Create" ∨ env.reqType = some "Update") := by
      rw [hdel]
      rintro (h | h) <;> exact absurd (Option.some.inj h) (by decide)
    cases hak : env.ackOk <;> simp [lambda_handler, hcu, hdel, hak]
  · intro hcu
    constructor
    · cases hak : env.ackOk <;> simp [lambda_handler, hcu, hak]
    · intro hak
      simp [lambda_handler, hcu, hak]

/-- C3 counterexample: a storage client error with a non-ParameterNotFound
code (e.g. a throttling error) is *caught* by the `except ClientError`
clause and resurfaces as an unbound-local error (`response` was never
assigned); it does not propagate as the original storage error, contrary
to the claim's reading modelled by `ssm_get_digest_claimed`. -/
theorem C3_counterexample :
    ssm_get_digest (.clientError "ThrottlingException") = .error .unboundLocal
    ∧ ssm_get_digest_claimed (.clientError "ThrottlingException") =
        .error (.clientStorageError "ThrottlingException")
    ∧ ssm_get_digest (.clientError "ThrottlingException") ≠
        ssm_get_digest_claimed (.clientError "ThrottlingException") := by
  refine ⟨?_, ?_, ?_⟩ <;> simp [ssm_get_digest, ssm_get_digest_claimed]

/-- C3 (amended): a missing parameter ("ParameterNotFound") is mapped to
the sentinel `"-1"` and never raises, and a sentinel stored digest makes
the Change Detector report not up to date (forcing a rebuild); any other
storage read error aborts the run fatally before any remote category or
digest write — but a client-side storage error with another code is caught
and surfaces as an unbound-local error rather than propagating as itself
(only non-client storage errors propagate unchanged). -/
theorem C3_digest_read_amended (cfg : Config) (env : Env)
    (hreq : env.reqType = none)
    (hmd : ∀ s, (env.md s).length = 32) :
    (∀ v, ssm_get_digest (.ok v) = .ok v)
    ∧ ssm_get_digest (.clientError "ParameterNotFound") = .ok "-1"
    ∧ (∀ m, ssm_get_digest (.otherError m) = .error (.storageError m))
    ∧ (∀ code, code ≠ "ParameterNotFound" →
        ssm_get_digest (.clientError code) = .error .unboundLocal)
    ∧ (ssm_get_digest env.ssmAcc = .ok "-1" →
        Effect.listCostCategories ∈ (lambda_handler cfg env).1)
    ∧ (ssm_get_digest env.ssmAcc = .ok (freshAccDigest cfg env) →
        ssm_get_digest env.ssmOus = .ok "-1" →
        Effect.listCostCategories ∈ (lambda_handler cfg env).1)
    ∧ (∀ e, ssm_get_digest env.ssmAcc = .error e →
        (lambda_handler cfg env).2 = some e ∧
        ∀ eff ∈ (lambda_handler cfg env).1, isWrite eff = false)
    ∧ (∀ e da, ssm_get_digest env.ssmAcc = .ok da → freshAccDigest cfg env = da →
        ssm_get_digest env.ssmOus = .error e →
        (lambda_handler cfg env).2 = some e ∧
        ∀ eff ∈ (lambda_handler cfg env).1, isWrite eff = false) := by
  have hsent : ∀ s, env.md s ≠ "-1" := by
    intro s h
    have h32 := hmd s
    rw [h] at h32
    cases h32
  refine ⟨fun v => rfl, by simp [ssm_get_digest], fun m => rfl, ?_, ?_, ?_, ?_, ?_⟩
  · intro code hc
    simp [ssm_get_digest, hc]
  · intro hA
    have hne : freshAccDigest cfg env ≠ "-1" := hsent _
    rw [lambda_handler_none hreq, reconcile_rebuild_acc hA hne]
    simp [listCC_mem_rebuildRun cfg env]
  · intro hA hO
    have hne : freshOusDigest cfg env ≠ "-1" := hsent _
    rw [lambda_handler_none hreq, reconcile_rebuild_ous hA rfl hO hne]
    simp [listCC_mem_rebuildRun cfg env]
  · intro e hAe
    rw [lambda_handler_none hreq, reconcile_err_acc hAe]
    refine ⟨rfl, ?_⟩
    intro eff heff
    rcases List.mem_append.mp heff with h | h
    · exact isWrite_enumEffects env _ h
    · simp at h
      subst h
      rfl
  · intro e da hA h1 hOe
    rw [lambda_handler_none hreq, reconcile_err_ous hA h1 hOe]
    refine ⟨rfl, ?_⟩
    intro eff heff
    rcases List.mem_append.mp heff with h | h
    · exact isWrite_enumEffects env _ h
    · simp at h
      rcases h with h | h <;> subst h <;> rfl

/-! ## Lemmas about tag collection -/
theorem tagsTreeAdd_allowed {allow : List String} {tt : TagsTree} {a : String} {t : Tag}
    (ht : t.1 ∈ allow) (h : ∀ p ∈ tt, ∀ tg ∈ p.2, tg.1 ∈ allow) :
    ∀ p ∈ tagsTreeAdd tt a t, ∀ tg ∈ p.2, tg.1 ∈ allow := by
  induction tt with
  | nil =>
      intro p hp tg htg
      simp [tagsTreeAdd] at hp
      subst hp
      simp at htg
      subst htg
      exact ht
  | cons q rest ih =>
      intro p hp tg htg
      by_cases hq : q.1 = a
      · rw [show tagsTreeAdd (q :: rest) a t = (q.1, q.2 ++ [t]) :: rest from by
          simp [tagsTreeAdd, hq]] at hp
        rcases List.mem_cons.mp hp with rfl | hp
        · rcases List.mem_append.mp htg with h1 | h1
          · exact h q (List.mem_cons_self q rest) tg h1
          · simp at h1
            subst h1
            exact ht
        · exact h p (List.mem_cons_of_mem q hp) tg htg
      · rw [show tagsTreeAdd (q :: rest) a t = q :: tagsTreeAdd rest a t from by
          simp [tagsTreeAdd, hq]] at hp
        rcases List.mem_cons.mp hp with rfl | hp
        · exact h p (List.mem_cons_self p rest) tg htg
        · exact ih (fun r hr => h r (List.mem_cons_of_mem q hr)) p hp tg htg

theorem addAccountTagList_allowed {allow : List String} {a : String} (ts : List Tag)
    {tt : TagsTree} (h : ∀ p ∈ tt, ∀ tg ∈ p.2, tg.1 ∈ allow) :
    ∀ p ∈ addAccountTagList allow tt a ts, ∀ tg ∈ p.2, tg.1 ∈ allow := by
  induction ts generalizing tt with
  | nil => simpa [addAccountTagList] using h
  | cons t rest ih =>
      by_cases ht : t.1 ∈ allow
      · rw [show addAccountTagList allow tt a (t :: rest) =
            addAccountTagList allow (tagsTreeAdd tt a t) a rest from by
          simp [addAccountTagList, ht]]
        exact ih (tagsTreeAdd_allowed ht h)
      · rw [show addAccountTagList allow tt a (t :: rest) =
            addAccountTagList allow tt a rest from by
          simp [addAccountTagList, ht]]
        exact ih h

theorem buildTagsTree_allowed (allow : List String) (accounts : List String)
    (src : String → List Tag) :
    ∀ p ∈ buildTagsTree allow accounts src, ∀ tg ∈ p.2, tg.1 ∈ allow := by
  suffices haux : ∀ (accs : List String) (tt : TagsTree),
      (∀ p ∈ tt, ∀ tg ∈ p.2, tg.1 ∈ allow) →
      ∀ p ∈ accs.foldl (fun tt a => org_fetch_tags_for_account allow src a tt) tt,
        ∀ tg ∈ p.2, tg.1 ∈ allow by
    exact haux accounts [] (by simp)
  intro accs
  induction accs with
  | nil => intro tt h; simpa using h
  | cons c rest ih =>
      intro tt h
      exact ih _ (addAccountTagList_allowed _ h)

theorem treeTags_tagsTreeAdd_self (tt : TagsTree) (a : String) (t : Tag) :
    treeTags (tagsTreeAdd tt a t) a = treeTags tt a ++ [t] := by
  induction tt with
  | nil => simp [tagsTreeAdd, treeTags]
  | cons q rest ih =>
      by_cases hq : q.1 = a <;> simp [tagsTreeAdd, treeTags, hq, ih]

theorem treeTags_addOuTagList (ts : List Tag) (tt : TagsTree) (r : String) :
    treeTags (addOuTagList tt r ts) r = treeTags tt r ++ ts := by
  induction ts generalizing tt with
  | nil => simp [addOuTagList]
  | cons t rest ih => simp [addOuTagList, ih, treeTags_tagsTreeAdd_self]

theorem treeTags_addAccountTagList (allow : List String) (ts : List Tag)
    (tt : TagsTree) (a : String) :
    treeTags (addAccountTagList allow tt a ts) a =
      treeTags tt a ++ ts.filter (fun tg => decide (tg.1 ∈ allow)) := by
  induction ts generalizing tt with
  | nil => simp [addAccountTagList]
  | cons t rest ih =>
      by_cases ht : t.1 ∈ allow
      · simp [addAccountTagList, ht, ih, treeTags_tagsTreeAdd_self, List.filter_cons]
      · simp [addAccountTagList, ht, ih, List.filter_cons]

theorem addAccountTagList_no_allowed {allow : List String} {a : String} {ts : List Tag}
    (h : ∀ t ∈ ts, t.1 ∉ allow) (tt : TagsTree) :
    addAccountTagList allow tt a ts = tt := by
  induction ts generalizing tt with
  | nil => rfl
  | cons t rest ih =>
      have ht : t.1 ∉ allow := h t (List.mem_cons_self t rest)
      rw [show addAccountTagList allow tt a (t :: rest) =
          addAccountTagList allow tt a rest from by simp [addAccountTagList, ht]]
      exact ih (fun x hx => h x (List.mem_cons_of_mem t hx)) tt

theorem mem_keys_tagsTreeAdd {tt : TagsTree} {a b : String} {t : Tag}
    (h : b ∈ (tagsTreeAdd tt a t).map Prod.fst) :
    b ∈ tt.map Prod.fst ∨ b = a := by
  induction tt with
  | nil =>
      simp [tagsTreeAdd] at h
      exact Or.inr h
  | cons q rest ih =>
      by_cases hq : q.1 = a
      · rw [show tagsTreeAdd (q :: rest) a t = (q.1, q.2 ++ [t]) :: rest from by
          simp [tagsTreeAdd, hq]] at h
        simp at h
        rcases h with h | h
        · exact Or.inl (by simp [h])
        · exact Or.inl (by simp [h])
      · rw [show tagsTreeAdd (q :: rest) a t = q :: tagsTreeAdd rest a t from by
          simp [tagsTreeAdd, hq]] at h
        simp at h
        rcases h with h | h
        · exact Or.inl (by simp [h])
        · rcases ih (by simpa using h) with h' | h'
          · exact Or.inl (by simp [h'])
          · exact Or.inr h'

theorem mem_keys_addAccountTagList {allow : List String} {a b : String} {ts : List Tag}
    {tt : TagsTree} (h : b ∈ (addAccountTagList allow tt a ts).map Prod.fst) :
    b ∈ tt.map Prod.fst ∨ b = a := by
  induction ts generalizing tt with
  | nil => exact Or.inl h
  | cons t rest ih =>
      by_cases ht : t.1 ∈ allow
      · rw [show addAccountTagList allow tt a (t :: rest) =
            addAccountTagList allow (tagsTreeAdd tt a t) a rest from by
          simp [addAccountTagList, ht]] at h
        rcases ih h with h' | h'
        · exact mem_keys_tagsTreeAdd h'
        · exact Or.inr h'
      · rw [show addAccountTagList allow tt a (t :: rest) =
            addAccountTagList allow tt a rest from by
          simp [addAccountTagList, ht]] at h
        exact ih h

theorem listCC_mem_reconcile_iff (cfg : Config) (env : Env) :
    Effect.listCostCategories ∈ (reconcile cfg env).1 ↔
      ((∃ da, ssm_get_digest env.ssmAcc = .ok da ∧ freshAccDigest cfg env ≠ da) ∨
       (∃ da du, ssm_get_digest env.ssmAcc = .ok da ∧ freshAccDigest cfg env = da ∧
         ssm_get_digest env.ssmOus = .ok du ∧ freshOusDigest cfg env ≠ du)) := by
  rcases hacc : ssm_get_digest env.ssmAcc with e | da
  · rw [reconcile_err_acc hacc]
    constructor
    · intro hm
      exfalso
      rcases List.mem_append.mp hm with h | h
      · exact listCC_not_mem_enumEffects env h
      · simp at h
    · rintro (⟨da, hda, _⟩ | ⟨da, du, hda, _⟩) <;> cases hda
  · by_cases h1 : freshAccDigest cfg env = da
    · rcases hous : ssm_get_digest env.ssmOus with e | du
      · rw [reconcile_err_ous hacc h1 hous]
        constructor
        · intro hm
          exfalso
          rcases List.mem_append.mp hm with h | h
          · exact listCC_not_mem_enumEffects env h
          · simp at h
        · rintro (⟨da', hda, hne⟩ | ⟨da', du', hda, heq, hdu, _⟩)
          · injection hda with hda'
            subst hda'
            exact absurd h1 hne
          · cases hdu
      · by_cases h2 : freshOusDigest cfg env = du
        · rw [reconcile_skip hacc h1 hous h2]
          constructor
          · intro hm
            exfalso
            rcases List.mem_append.mp hm with h | h
            · exact listCC_not_mem_enumEffects env h
            · simp at h
          · rintro (⟨da', hda, hne⟩ | ⟨da', du', hda, heq, hdu, hne⟩)
            · injection hda with hda'
              subst hda'
              exact absurd h1 hne
            · injection hdu with hdu'
              subst hdu'
              exact absurd h2 hne
        · rw [reconcile_rebuild_ous hacc h1 hous h2]
          constructor
          · intro _
            exact Or.inr ⟨da, du, rfl, h1, rfl, h2⟩
          · intro _
            simp [listCC_mem_rebuildRun cfg env]
    · rw [reconcile_rebuild_acc hacc h1]
      constructor
      · intro _
        exact Or.inl ⟨da, rfl, h1⟩
      · intro _
        simp [listCC_mem_rebuildRun cfg env]

/-- C9 (amended): account tag collection keeps only allow-listed keys while
`org_fetch_tags_for_ou` collects all tags unfiltered; but that function is
never invoked by the handler, and unit tags feed *nothing* — not the Rule
Builder and not the units digest either (the digest is computed over the
sorted unit-id list alone): the whole run is invariant under any change of
the unit tags. -/
theorem C9_tag_collection_asymmetry (cfg : Config) (env : Env)
    (src : String → List Tag) (r a : String) (t1 t2 : String → List Tag) :
    (∀ p ∈ buildTagsTree cfg.allow env.accounts env.accTags, ∀ tg ∈ p.2, tg.1 ∈ cfg.allow)
    ∧ treeTags (org_fetch_tags_for_ou src r []) r = src r
    ∧ treeTags (org_fetch_tags_for_account cfg.allow src a []) a =
        (src a).filter (fun tg => decide (tg.1 ∈ cfg.allow))
    ∧ lambda_handler cfg { env with ouTags := t1 } =
        lambda_handler cfg { env with ouTags := t2 } := by
  refine ⟨buildTagsTree_allowed cfg.allow env.accounts env.accTags, ?_, ?_, ?_⟩
  · show treeTags (addOuTagList [] r (src r)) r = src r
    rw [treeTags_addOuTagList]
    rfl
  · show treeTags (addAccountTagList cfg.allow [] a (src a)) a = _
    rw [treeTags_addAccountTagList]
    rfl
  · rfl

/-- C10: an account none of whose tags is allow-listed never becomes a key
of `tags_tree`; appending (or removing) such an account leaves the built
tree — hence the accounts fingerprint — unchanged, and the run's
rebuild-or-skip decision is unaffected. -/
theorem C10_untagged_account_invisible (cfg : Config) (env : Env) (a : String)
    (hreq : env.reqType = none)
    (h : ∀ t ∈ env.accTags a, t.1 ∉ cfg.allow) :
    a ∉ (buildTagsTree cfg.allow env.accounts env.accTags).map Prod.fst
    ∧ buildTagsTree cfg.allow (env.accounts ++ [a]) env.accTags =
        buildTagsTree cfg.allow env.accounts env.accTags
    ∧ freshAccDigest cfg { env with accounts := env.accounts ++ [a] } =
        freshAccDigest cfg env
    ∧ (Effect.listCostCategories ∈
          (lambda_handler cfg { env with accounts := env.accounts ++ [a] }).1 ↔
        Effect.listCostCategories ∈ (lambda_handler cfg env).1) := by
  have hnkey : ∀ (accs : List String) (tt : TagsTree), a ∉ tt.map Prod.fst →
      a ∉ (accs.foldl (fun tt c => org_fetch_tags_for_account cfg.allow env.accTags c tt)
        tt).map Prod.fst := by
    intro accs
    induction accs with
    | nil => intro tt ha; simpa using ha
    | cons c rest ih =>
        intro tt ha
        apply ih
        by_cases hc : c = a
        · subst hc
          show c ∉ (addAccountTagList cfg.allow tt c (env.accTags c)).map Prod.fst
          rw [addAccountTagList_no_allowed h]
          exact ha
        · intro hmem
          rcases mem_keys_addAccountTagList hmem with h' | h'
          · exact ha h'
          · exact hc h'.symm
  have hb : buildTagsTree cfg.allow (env.accounts ++ [a]) env.accTags =
      buildTagsTree cfg.allow env.accounts env.accTags := by
    unfold buildTagsTree
    rw [List.foldl_append]
    simp only [List.foldl_cons, List.foldl_nil]
    exact addAccountTagList_no_allowed h _
  have h3 : freshAccDigest cfg { env with accounts := env.accounts ++ [a] } =
      freshAccDigest cfg env := by
    unfold freshAccDigest
    show hash_dict env.md
        (jvOfTagsTree (buildTagsTree cfg.allow (env.accounts ++ [a]) env.accTags)) = _
    rw [hb]
  have h4 : freshOusDigest cfg { env with accounts := env.accounts ++ [a] } =
      freshOusDigest cfg env := rfl
  refine ⟨hnkey env.accounts [] (by simp), hb, h3, ?_⟩
  rw [lambda_handler_none hreq,
    lambda_handler_none (show ({ env with accounts := env.accounts ++ [a] } : Env).reqType
      = none from hreq)]
  rw [listCC_mem_reconcile_iff, listCC_mem_reconcile_iff]
  rw [h3, h4]

/-- C4: Fingerprint canonicalization.  Mappings equal as key-value sets —
same (duplicate-free) pairs in any insertion order, recursively
(`JvEquiv`) — fingerprint identically under any digest function; in
particular any top-level permutation of a duplicate-free field list leaves
the digest unchanged; sequences are serialized in order, so the same
elements in a different order yield a different serialization; and the
function is pure. -/
theorem C4_fingerprint_canonical (md : String → String) (m1 m2 : Jv)
    (h : JvEquiv m1 m2) :
    hash_dict md m1 = hash_dict md m2
    ∧ (∀ f1 f2 : List (String × Jv), f1.Perm f2 → (f1.map Prod.fst).Nodup →
        hash_dict md (.obj f1) = hash_dict md (.obj f2))
    ∧ canonicalJson (.arr [.str "a", .str "b"]) ≠ canonicalJson (.arr [.str "b", .str "a"])
    ∧ hash_dict md m1 = hash_dict md m1 := by
  refine ⟨?_, ?_, ?_, rfl⟩
  · unfold hash_dict canonicalJson
    rw [sortJv_eq_of_equiv h]
  · intro f1 f2 hp hn
    unfold hash_dict canonicalJson
    have hs : sortJv (Jv.obj f1) = sortJv (Jv.obj f2) := by
      simp only [sortJv]
      congr 1
      apply sortPairs_eq_of_perm
      · rw [sortJvFields_eq_map, sortJvFields_eq_map]
        exact hp.map _
      · rw [sortJvFields_keys]
        exact hn
    rw [hs]
  · decide

/-- Witness for C4: the two differently-ordered mappings fingerprint
identically. -/
theorem C4_fingerprint_canonical_witness :
    hash_dict (fun s => s) m1W = hash_dict (fun s => s) m2W :=
  (C4_fingerprint_canonical (fun s => s) m1W m2W
    (JvEquiv.obj [("a", .str "1"), ("b", .str "2")] (by decide)
      (List.Perm.swap _ _ _)
      (JvFieldsEquiv.cons "a" (JvEquiv.str "1")
        (JvFieldsEquiv.cons "b" (JvEquiv.str "2") JvFieldsEquiv.nil)))).1

/-- Witness for C2: on the matching concrete environment the run performs
only reads. -/
theorem C2_change_detector_skip_witness :
    lambda_handler cfgW envW =
      (enumEffects envW ++ [.getDigest cfgW.accPath, .getDigest cfgW.ousPath], none) :=
  (C2_change_detector_skip cfgW envW "D" "D" rfl rfl rfl).1 ⟨rfl, rfl⟩

/-- Witness for C5: with a differing digest and failing remote calls, the
error propagates and the rebuild was attempted. -/
theorem C5_digest_non_advancement_witness :
    (∃ n, (lambda_handler cfgW envFailW).2 = some (.ceFailed n))
    ∧ Effect.listCostCategories ∈ (lambda_handler cfgW envFailW).1 :=
  have h := C5_digest_non_advancement cfgW envFailW "-1" rfl rfl (by decide) (by decide)
  ⟨h.2.1, h.2.2.2⟩

/-- Witness for C3 (amended): a missing parameter yields the sentinel and
forces a rebuild. -/
theorem C3_digest_read_amended_witness :
    Effect.listCostCategories ∈ (lambda_handler cfgW envSentW).1 :=
  (C3_digest_read_amended cfgW envSentW rfl (fun s => rfl)).2.2.2.2.1 rfl

/-- Witness for C8: a Delete event only acknowledges and returns. -/
theorem C8_lifecycle_gating_witness :
    lambda_handler cfgW envDelW = ([Effect.sendResponse "SUCCESS"], none) := by
  have h := (C8_lifecycle_gating cfgW envDelW).1 rfl
  simpa [envDelW, envW] using h

/-- Witness for C9 (amended) at concrete unit-tag assignments. -/
theorem C9_tag_collection_asymmetry_witness :
    lambda_handler cfgW { envW with ouTags := fun _ => [("Team", "Core")] } =
      lambda_handler cfgW { envW with ouTags := fun _ => [] } :=
  (C9_tag_collection_asymmetry cfgW envW (fun _ => []) "ou-1" "A1"
    (fun _ => [("Team", "Core")]) (fun _ => [])).2.2.2

/-- C9 counterexample: on a rebuild run, two environments identical except
for the unit tags (which differ on the collected OU `ou-1`) produce
byte-identical runs — including the persisted units digest — so collected
unit tags do not feed the units digest (nor anything else). -/
theorem C9_units_digest_counterexample :
    (fun _ : String => [(("Team", "Core") : Tag)]) "ou-1" ≠
      (fun _ : String => ([] : List Tag)) "ou-1"
    ∧ lambda_handler cfgW { envRebW with ouTags := fun _ => [("Team", "Core")] } =
        lambda_handler cfgW { envRebW with ouTags := fun _ => [] }
    ∧ Effect.putDigest cfgW.ousPath "D" ∈
        (lambda_handler cfgW { envRebW with ouTags := fun _ => [("Team", "Core")] }).1 := by
  refine ⟨by decide, rfl, ?_⟩
  decide

/-- Witness for C10: appending the untagged account `A4` leaves the built
tree unchanged. -/
theorem C10_untagged_account_invisible_witness :
    buildTagsTree cfgW.allow (envW.accounts ++ ["A4"]) envW.accTags =
      buildTagsTree cfgW.allow envW.accounts envW.accTags :=
  (C10_untagged_account_invisible cfgW envW "A4" rfl (by decide)).2.1

end CCat
